import Mathlib

/-!
Verification of the graph-propagation core of `scripts/network_propagation.py`:
graph construction from the three text formats (STRING / GUILD / DIAMOnD-style),
seed resolution, the RWR power iteration and the DIAMOnD hypergeometric
expansion.  Python floats are modelled by exact rationals (`ℚ`); Python ints by
`ℤ`/`ℕ`; a networkx graph by the ordered sequence of `add_edge` calls that
built it (the only way graphs are built in this program).
-/

/-- One `G.add_edge(u, v, weight)` call. -/
structure Edge where
  src : String
  dst : String
  weight : ℚ
deriving DecidableEq

/-- An undirected networkx-style graph: the ordered list of `add_edge` calls
that built it.  Node order and neighbor order are first-insertion order,
exactly as in networkx dictionaries. -/
structure Graph where
  edges : List Edge
deriving DecidableEq

/-- Append a node to an insertion-ordered node list if it is not present yet
(networkx dict-key insertion). -/
def insertNode (ns : List String) (x : String) : List String :=
  if x ∈ ns then ns else ns ++ [x]

/-- Accumulate the node list over the `add_edge` calls (`add_edge(u,v)` first
registers `u`, then `v`). -/
def nodesAux (acc : List String) : List Edge → List String
  | [] => acc
  | e :: es => nodesAux (insertNode (insertNode acc e.src) e.dst) es

/-- The graph's node list (`list(G.nodes())`), in insertion order. -/
def Graph.nodes (g : Graph) : List String := nodesAux [] g.edges

/-- Accumulate the neighbor list of `x` over the `add_edge` calls: the call
`add_edge(u,v)` inserts `v` among `u`'s neighbors and `u` among `v`'s. -/
def neighAux (x : String) (acc : List String) : List Edge → List String
  | [] => acc
  | e :: es =>
    neighAux x (if e.dst = x then insertNode (if e.src = x then insertNode acc e.dst else acc) e.src
                else (if e.src = x then insertNode acc e.dst else acc)) es

/-- The neighbor list of `x` (`list(G.neighbors(x))`), in insertion order. -/
def Graph.neighbors (g : Graph) (x : String) : List String := neighAux x [] g.edges

/-- Degree of `x`: number of (distinct) neighbors. -/
def Graph.degree (g : Graph) (x : String) : Nat := (g.neighbors x).length

/-- Node membership, Python's `x in G`. -/
def Graph.hasNode (g : Graph) (x : String) : Prop := x ∈ g.nodes

instance (g : Graph) (x : String) : Decidable (g.hasNode x) := by
  unfold Graph.hasNode; infer_instance

/-- Embeds `G.number_of_nodes()`. -/
def Graph.numberOfNodes (g : Graph) : Nat := g.nodes.length

/-- Adjacency: `v` is a neighbor of `u`. -/
def Graph.adjacent (g : Graph) (u v : String) : Prop := v ∈ g.neighbors u

instance (g : Graph) (u v : String) : Decidable (g.adjacent u v) := by
  unfold Graph.adjacent; infer_instance

/-- Stored weight of the edge between `u` and `v` (last `add_edge` wins,
as in networkx where re-adding an edge overwrites its data). -/
def Graph.weightOf (g : Graph) (u v : String) : Option ℚ :=
  ((g.edges.filter (fun e =>
      (e.src = u ∧ e.dst = v) ∨ (e.src = v ∧ e.dst = u))).getLast?).map Edge.weight

/- ============================ string utilities ============================ -/

/-- Python whitespace (the characters `str.strip()` / `str.split()` treat as
separators). -/
def isPyWS (c : Char) : Bool :=
  c = ' ' || c = '\t' || c = '\n' || c = '\r' || c = '\x0b' || c = '\x0c'

/-- Remove trailing whitespace. -/
def rstripChars : List Char → List Char
  | [] => []
  | c :: cs =>
    if rstripChars cs = [] ∧ isPyWS c then [] else c :: rstripChars cs

/-- Python `str.strip()` on the underlying character list. -/
def stripChars (cs : List Char) : List Char := rstripChars (cs.dropWhile isPyWS)

/-- Python `str.strip()`. -/
def pyStrip (s : String) : String := String.mk (stripChars s.data)

/-- Worker for whitespace splitting: `cur` is the (reversed) token being
accumulated. -/
def splitWSAux : List Char → List Char → List (List Char)
  | cur, [] => if cur = [] then [] else [cur.reverse]
  | cur, c :: cs =>
    if isPyWS c then
      if cur = [] then splitWSAux [] cs else cur.reverse :: splitWSAux [] cs
    else splitWSAux (c :: cur) cs

/-- Python `str.split()` with no argument: split on runs of whitespace,
discarding empty fields. -/
def pySplitWS (s : String) : List String := (splitWSAux [] s.data).map String.mk

/-- Python `s.startswith("#")`: the first character is `'#'`. -/
def startsWithHash (s : String) : Bool :=
  match s.data with
  | [] => false
  | c :: _ => c = '#'

/-- Split a character list at its first comma: `splitFirstComma cs = some (a, b)`
iff `cs = a ++ ',' :: b` with `a` comma-free; `none` iff `cs` has no comma
(Python `s.split(",", 1)`). -/
def splitFirstComma : List Char → Option (List Char × List Char)
  | [] => none
  | c :: cs =>
    if c = ',' then some ([], cs)
    else
      match splitFirstComma cs with
      | none => none
      | some (a, b) => some (c :: a, b)

/- ============================== graph loaders ============================= -/

/-- One data row of the STRING TSV (columns `protein1_hugo`, `protein2_hugo`,
`combined_score`). -/
structure StringRow where
  protein1 : String
  protein2 : String
  score : Int
deriving DecidableEq

/-- Embeds `load_string_network`: when `min_score > 0`, keep only the rows with
`combined_score >= min_score`; add each surviving row as an edge (undirected,
weight = `float(combined_score)`). -/
def load_string_network (rows : List StringRow) (minScore : Int) : Graph :=
  ⟨(if minScore > 0 then rows.filter (fun r => minScore ≤ r.score) else rows).map
      (fun r => ⟨r.protein1, r.protein2, (r.score : ℚ)⟩)⟩

/-- Embeds the per-line body of `load_guild_network`.  `parseF` models Python
`float(...)` returning `none` exactly when the parse raises `ValueError`.
The line is stripped; blank or `#`-starting lines and lines with fewer than
three whitespace tokens are skipped; otherwise `u, w, v = parts[0..2]`, and if
`w` fails to parse the weight becomes `1.0` and the target becomes
`parts[-1]`. -/
def guildLine (parseF : String → Option ℚ) (line : String) : Option Edge :=
  let t := pyStrip line
  if t = "" then none
  else if startsWithHash t then none
  else
    let parts := pySplitWS t
    if parts.length < 3 then none
    else
      match parseF (parts.getD 1 "") with
      | some x => some ⟨parts.getD 0 "", parts.getD 2 "", x⟩
      | none => some ⟨parts.getD 0 "", parts.getLastD "", 1⟩

/-- Embeds `load_guild_network` over the file's lines. -/
def load_guild_network (parseF : String → Option ℚ) (lines : List String) : Graph :=
  ⟨lines.filterMap (guildLine parseF)⟩

/-- Embeds the per-line body of `load_diamond_network`: strip, skip blank and
`#`-starting lines, skip lines without a comma, else split at the FIRST comma
(`line.split(",", 1)`), strip both parts, weight `1.0`. -/
def diamondLine (line : String) : Option Edge :=
  let t := pyStrip line
  if t = "" then none
  else if startsWithHash t then none
  else
    match splitFirstComma t.data with
    | none => none
    | some (a, b) => some ⟨String.mk (stripChars a), String.mk (stripChars b), 1⟩

/-- Embeds `load_diamond_network` over the file's lines. -/
def load_diamond_network (lines : List String) : Graph :=
  ⟨lines.filterMap diamondLine⟩

/- ============================== RWR engine =============================== -/

/-- The resolved seed list `[s for s in seeds if s in G]` (order and
multiplicity preserved). -/
def resolvedSeeds (g : Graph) (seeds : List String) : List String :=
  seeds.filter (fun s => s ∈ g.nodes)

/-- Python `y[i] += x` on a list. -/
def addAt (l : List ℚ) (i : Nat) (x : ℚ) : List ℚ :=
  l.set i (l.getD i 0 + x)

/-- Embeds `multiply_Pt`: `y = P^T · vec`, computed as in the source by
scattering `vec[idx[u]] / degree(u)` onto every neighbor of every node `u`
with nonzero degree. -/
def multiply_Pt (g : Graph) (vec : List ℚ) : List ℚ :=
  g.nodes.foldl
    (fun y u =>
      if g.degree u = 0 then y
      else
        (g.neighbors u).foldl
          (fun y2 v => addAt y2 (g.nodes.indexOf v) (vec.getD (g.nodes.indexOf u) 0 / (g.degree u : ℚ)))
          y)
    (List.replicate g.nodes.length 0)

/-- Embeds the convergence loop of `rwr_scores`: up to `fuel` iterations of
`r ← (1-alpha)·P^T r + alpha·r0`, stopping as soon as the L1 distance between
consecutive vectors is `< tol` (the freshly computed vector is kept). -/
def rwrIter (g : Graph) (alpha tol : ℚ) (r0 : List ℚ) : Nat → List ℚ → List ℚ
  | 0, r => r
  | fuel + 1, r =>
    let newR := List.zipWith (fun yv r0v => (1 - alpha) * yv + alpha * r0v) (multiply_Pt g r) r0
    if (List.zipWith (fun a b => |a - b|) newR r).sum < tol then newR
    else rwrIter g alpha tol r0 fuel newR

/-- Embeds `rwr_scores`.  Empty graph returns the empty mapping; no resolved
seed raises `ValueError`; otherwise `r0` is built by assigning
`1/len(resolved)` at each resolved seed's index and the loop runs. -/
def rwr_scores (g : Graph) (seeds : List String) (alpha tol : ℚ) (maxIter : Nat) :
    Except String (List (String × ℚ)) :=
  if g.nodes = [] then .ok []
  else
    let sr := resolvedSeeds g seeds
    if sr = [] then .error "Ninguna semilla esta presente en la red."
    else
      let r0 := sr.foldl (fun r s => r.set (g.nodes.indexOf s) (1 / (sr.length : ℚ)))
        (List.replicate g.nodes.length 0)
      let r := rwrIter g alpha tol r0 maxIter r0
      .ok (g.nodes.map (fun n => (n, r.getD (g.nodes.indexOf n) 0)))

/- ===================== RWR engine, specification side ===================== -/

/-- Modelled from the spec wording for C1: `y[v] = Σ_{u : d(u)>0, v ∈ N(u)}
vec[u]/d(u)` — every node `u` of positive degree sends `vec[u]/d(u)` to each
of its neighbors; degree-0 nodes send nothing. -/
def multiplySpec (g : Graph) (vec : List ℚ) : List ℚ :=
  g.nodes.map (fun v =>
    (g.nodes.map (fun u =>
      if g.degree u ≠ 0 ∧ v ∈ g.neighbors u then
        vec.getD (g.nodes.indexOf u) 0 / (g.degree u : ℚ)
      else 0)).sum)

/-- Specification-side convergence loop: identical policy to `rwrIter` but
with the spec transition `multiplySpec`. -/
def rwrIterSpec (g : Graph) (alpha tol : ℚ) (r0 : List ℚ) : Nat → List ℚ → List ℚ
  | 0, r => r
  | fuel + 1, r =>
    let newR := List.zipWith (fun yv r0v => (1 - alpha) * yv + alpha * r0v) (multiplySpec g r) r0
    if (List.zipWith (fun a b => |a - b|) newR r).sum < tol then newR
    else rwrIterSpec g alpha tol r0 fuel newR

/-- Specification-side RWR: `r0` places mass `1/|resolved|` on each resolved
seed and 0 elsewhere, then the spec transition iterates with the same restart
and stopping policy. -/
def rwr_scores_spec (g : Graph) (seeds : List String) (alpha tol : ℚ) (maxIter : Nat) :
    Except String (List (String × ℚ)) :=
  if g.nodes = [] then .ok []
  else
    let sr := resolvedSeeds g seeds
    if sr = [] then .error "Ninguna semilla esta presente en la red."
    else
      let r0 := g.nodes.map (fun n => if n ∈ sr then 1 / (sr.length : ℚ) else 0)
      let r := rwrIterSpec g alpha tol r0 maxIter r0
      .ok (g.nodes.map (fun n => (n, r.getD (g.nodes.indexOf n) 0)))

/- ============================= DIAMOnD engine ============================= -/

/-- Embeds `_comb`: `0` when `k < 0` or `k > n`, else the exact binomial
coefficient (`math.comb`). -/
def pyComb (n k : Int) : Int :=
  if k < 0 ∨ k > n then 0 else (Nat.choose n.toNat k.toNat : Int)

/-- Embeds `_hypergeom_pmf`: `P(X = i)` for `X ~ Hypergeom(N, K, n)` with exact
integer binomials; returns `0.0` when the denominator vanishes. -/
def hypergeomPmf (i N K n : Int) : ℚ :=
  if pyComb N n = 0 then 0
  else ((pyComb K i * pyComb (N - K) (n - i) : Int) : ℚ) / ((pyComb N n : Int) : ℚ)

/-- Python `range(a, b)` as a list of integers. -/
def intRange (a b : Int) : List Int :=
  (List.range (b - a).toNat).map (fun j : Nat => a + (j : Int))

/-- Embeds `_hypergeom_sf`: the upper tail `P(X >= k)` with `k = kMinus1 + 1`,
summed over `i = k .. min(n, K)`; `0.0` when the range is empty. -/
def hypergeomSf (kMinus1 N K n : Int) : ℚ :=
  if kMinus1 + 1 > min n K then 0
  else ((intRange (kMinus1 + 1) (min n K + 1)).map (fun i => hypergeomPmf i N K n)).sum

/-- Embeds the candidate scan of one DIAMOnD step: every node not in
`current` with at least one neighbor gets the score
`_hypergeom_sf(k-1, N, K, n)` where `k` counts its neighbors inside `current`
and `n` is its degree; candidates appear in `G.nodes()` order. -/
def diamondCandidates (g : Graph) (current : List String) : List (String × ℚ) :=
  g.nodes.filterMap (fun c =>
    if c ∈ current then none
    else
      if (g.neighbors c).length = 0 then none
      else some (c, hypergeomSf (((g.neighbors c).filter (fun v => v ∈ current)).length - 1)
        (g.numberOfNodes : Int) (current.length : Int) ((g.neighbors c).length : Int)))

/-- Python `min(candidates, key=score)`: the first element with the strictly
smallest key wins (later elements replace the champion only when strictly
smaller). -/
def pyMinBy (f : String × ℚ → ℚ) : List (String × ℚ) → Option (String × ℚ)
  | [] => none
  | x :: xs => some (xs.foldl (fun b y => if f y < f b then y else b) x)

/-- Embeds the step loop of `diamond_iterative`: at each step score all
candidates, stop when none remains, else append the minimal one (with the
current 1-based step index) and add it to the working seed set. -/
def diamondLoop (g : Graph) : Nat → Nat → List String → List (String × ℚ × Nat)
  | 0, _, _ => []
  | fuel + 1, step, current =>
    match pyMinBy Prod.snd (diamondCandidates g current) with
    | none => []
    | some (c, p) => (c, p, step) :: diamondLoop g fuel (step + 1) (current ++ [c])

/-- Embeds `diamond_iterative`: empty graph returns the empty ranking; no
resolved seed raises `ValueError`; otherwise run the loop starting from the
(distinct) resolved seeds with 1-based step numbering. -/
def diamond_iterative (g : Graph) (seedSet : List String) (steps : Nat) :
    Except String (List (String × ℚ × Nat)) :=
  if g.numberOfNodes = 0 then .ok []
  else
    let seeds := (seedSet.filter (fun s => s ∈ g.nodes)).dedup
    if seeds = [] then .error "Ninguna semilla esta presente en la red para DIAMOnD."
    else .ok (diamondLoop g steps 1 seeds)

/- ==================== DIAMOnD engine, specification side ================== -/

/-- Modelled from the claim wording for C2: the upper-tail hypergeometric
probability `P[X >= k]` for `X ~ Hypergeometric(N, K, n)`, written with exact
integer binomial coefficients over the full support `k..n`. -/
def hypergeomTail (k N K n : Nat) : ℚ :=
  ∑ i ∈ Finset.Icc k n, (K.choose i * (N - K).choose (n - i) : ℚ) / (N.choose n : ℚ)

/-- Specification-side candidate scan: every node `c` not in the current seed
set with degree `n > 0` is scored `P[X >= k]`, `k` its number of neighbors in
the current seed set; degree-0 nodes are never candidates; encounter order is
the graph's node enumeration. -/
def diamondCandidatesSpec (g : Graph) (current : List String) : List (String × ℚ) :=
  g.nodes.filterMap (fun c =>
    if c ∈ current then none
    else
      if g.degree c = 0 then none
      else some (c, hypergeomTail ((g.neighbors c).filter (fun v => v ∈ current)).length
        g.numberOfNodes current.length (g.degree c)))

/-- Specification-side selection: the first candidate (in encounter order)
whose score is less than or equal to every candidate's score — the minimum,
ties broken by encounter order. -/
def specSelect (l : List (String × ℚ)) : Option (String × ℚ) :=
  l.find? (fun x => l.all (fun y => x.2 ≤ y.2))

/-- Specification-side step loop with the same stepping policy as
`diamondLoop`. -/
def diamondLoopSpec (g : Graph) : Nat → Nat → List String → List (String × ℚ × Nat)
  | 0, _, _ => []
  | fuel + 1, step, current =>
    match specSelect (diamondCandidatesSpec g current) with
    | none => []
    | some (c, p) => (c, p, step) :: diamondLoopSpec g fuel (step + 1) (current ++ [c])

/-- Specification-side DIAMOnD. -/
def diamond_spec (g : Graph) (seedSet : List String) (steps : Nat) :
    Except String (List (String × ℚ × Nat)) :=
  if g.numberOfNodes = 0 then .ok []
  else
    let seeds := (seedSet.filter (fun s => s ∈ g.nodes)).dedup
    if seeds = [] then .error "Ninguna semilla esta presente en la red para DIAMOnD."
    else .ok (diamondLoopSpec g steps 1 seeds)

/- ========================== basic graph lemmas =========================== -/

theorem mem_insertNode {ns : List String} {y x : String} :
    x ∈ insertNode ns y ↔ x ∈ ns ∨ x = y := by
  unfold insertNode
  split <;> simp_all

theorem nodup_insertNode {ns : List String} {y : String} (h : ns.Nodup) :
    (insertNode ns y).Nodup := by
  unfold insertNode
  split
  · exact h
  · simp [List.nodup_append, h]
    assumption

theorem mem_nodesAux {es : List Edge} : ∀ {acc : List String} {x : String},
    x ∈ nodesAux acc es ↔ x ∈ acc ∨ ∃ e ∈ es, e.src = x ∨ e.dst = x := by
  induction es with
  | nil => intro acc x; simp [nodesAux]
  | cons e es ih =>
    intro acc x
    rw [nodesAux, ih]
    simp only [mem_insertNode, List.mem_cons]
    aesop

theorem nodup_nodesAux {es : List Edge} : ∀ {acc : List String}, acc.Nodup →
    (nodesAux acc es).Nodup := by
  induction es with
  | nil => intro acc h; exact h
  | cons e es ih =>
    intro acc h
    exact ih (nodup_insertNode (nodup_insertNode h))

theorem Graph.nodes_nodup (g : Graph) : g.nodes.Nodup :=
  nodup_nodesAux List.nodup_nil

theorem neighStep_mem {acc : List String} {e : Edge} {x v : String} :
    v ∈ (if e.dst = x then insertNode (if e.src = x then insertNode acc e.dst else acc) e.src
         else (if e.src = x then insertNode acc e.dst else acc)) ↔
      v ∈ acc ∨ (e.src = x ∧ e.dst = v) ∨ (e.dst = x ∧ e.src = v) := by
  split <;> split
  all_goals try simp only [mem_insertNode]
  all_goals aesop

theorem mem_neighAux {x : String} {es : List Edge} : ∀ {acc : List String} {v : String},
    v ∈ neighAux x acc es ↔
      v ∈ acc ∨ ∃ e ∈ es, (e.src = x ∧ e.dst = v) ∨ (e.dst = x ∧ e.src = v) := by
  induction es with
  | nil => intro acc v; simp [neighAux]
  | cons e es ih =>
    intro acc v
    rw [neighAux, ih]
    rw [neighStep_mem]
    simp only [List.mem_cons]
    aesop

theorem nodup_neighAux {x : String} {es : List Edge} : ∀ {acc : List String}, acc.Nodup →
    (neighAux x acc es).Nodup := by
  induction es with
  | nil => intro acc h; exact h
  | cons e es ih =>
    intro acc h
    rw [neighAux]
    apply ih
    split
    · apply nodup_insertNode
      split
      · exact nodup_insertNode h
      · exact h
    · split
      · exact nodup_insertNode h
      · exact h

theorem Graph.neighbors_nodup (g : Graph) (x : String) : (g.neighbors x).Nodup :=
  nodup_neighAux List.nodup_nil

theorem mem_neighbors_iff {g : Graph} {x v : String} :
    v ∈ g.neighbors x ↔
      ∃ e ∈ g.edges, (e.src = x ∧ e.dst = v) ∨ (e.dst = x ∧ e.src = v) := by
  rw [Graph.neighbors, mem_neighAux]
  simp

theorem neighbors_subset_nodes {g : Graph} {x v : String} (h : v ∈ g.neighbors x) :
    v ∈ g.nodes := by
  rw [Graph.nodes, mem_nodesAux]
  obtain ⟨e, he, hx⟩ := mem_neighbors_iff.mp h
  rcases hx with ⟨_, rfl⟩ | ⟨_, rfl⟩
  · exact Or.inr ⟨e, he, Or.inr rfl⟩
  · exact Or.inr ⟨e, he, Or.inl rfl⟩

theorem neighbors_mem_nodes {g : Graph} {x v : String} (h : v ∈ g.neighbors x) :
    x ∈ g.nodes := by
  rw [Graph.nodes, mem_nodesAux]
  obtain ⟨e, he, hx⟩ := mem_neighbors_iff.mp h
  rcases hx with ⟨rfl, _⟩ | ⟨rfl, _⟩
  · exact Or.inr ⟨e, he, Or.inl rfl⟩
  · exact Or.inr ⟨e, he, Or.inr rfl⟩

/- ========================= string utility lemmas ========================= -/

theorem rstripChars_eq_append (cs : List Char) :
    ∃ ws, cs = rstripChars cs ++ ws ∧ ∀ c ∈ ws, isPyWS c = true := by
  induction cs with
  | nil => exact ⟨[], rfl, by simp⟩
  | cons c cs ih =>
    obtain ⟨ws, hcs, hws⟩ := ih
    rw [rstripChars]
    split
    case isTrue h =>
      refine ⟨c :: cs, rfl, fun d hd => ?_⟩
      rcases List.mem_cons.mp hd with rfl | hd2
      · exact h.2
      · rw [h.1] at hcs
        simp only [List.nil_append] at hcs
        exact hws d (hcs ▸ hd2)
    case isFalse h =>
      exact ⟨ws, by rw [List.cons_append, ← hcs], hws⟩

theorem splitWSAux_allWS {ws : List Char} (hws : ∀ c ∈ ws, isPyWS c = true) (cur : List Char) :
    splitWSAux cur ws = if cur = [] then [] else [cur.reverse] := by
  induction ws generalizing cur with
  | nil => rw [splitWSAux]
  | cons c cs ih =>
    rw [splitWSAux, if_pos (hws c (List.mem_cons_self c cs))]
    have h2 : ∀ d ∈ cs, isPyWS d = true := fun d hd => hws d (List.mem_cons_of_mem c hd)
    split
    · rw [ih h2, if_pos rfl]
    · rw [ih h2, if_pos rfl]

theorem splitWSAux_append_ws {ws : List Char} (hws : ∀ c ∈ ws, isPyWS c = true) :
    ∀ (cs cur : List Char), splitWSAux cur (cs ++ ws) = splitWSAux cur cs := by
  intro cs
  induction cs with
  | nil =>
    intro cur
    rw [List.nil_append, splitWSAux_allWS hws, splitWSAux]
  | cons c cs ih =>
    intro cur
    rw [List.cons_append, splitWSAux, splitWSAux]
    split
    · split
      · exact ih []
      · rw [ih []]
    · exact ih (c :: cur)

theorem splitWSAux_dropWhile : ∀ cs : List Char,
    splitWSAux [] (cs.dropWhile isPyWS) = splitWSAux [] cs := by
  intro cs
  induction cs with
  | nil => rfl
  | cons c cs ih =>
    rw [List.dropWhile_cons]
    split
    case isTrue h => rw [ih, splitWSAux, if_pos h, if_pos rfl]
    case isFalse h => rfl

theorem pySplitWS_pyStrip (s : String) : pySplitWS (pyStrip s) = pySplitWS s := by
  unfold pySplitWS pyStrip
  congr 1
  show splitWSAux [] (stripChars s.data) = splitWSAux [] s.data
  unfold stripChars
  obtain ⟨ws, ha, hws⟩ := rstripChars_eq_append (s.data.dropWhile isPyWS)
  calc splitWSAux [] (rstripChars (s.data.dropWhile isPyWS))
      = splitWSAux [] (rstripChars (s.data.dropWhile isPyWS) ++ ws) :=
        (splitWSAux_append_ws hws _ _).symm
    _ = splitWSAux [] (s.data.dropWhile isPyWS) := by rw [← ha]
    _ = splitWSAux [] s.data := splitWSAux_dropWhile s.data

theorem splitFirstComma_append {a : List Char} (ha : ',' ∉ a) (b : List Char) :
    splitFirstComma (a ++ ',' :: b) = some (a, b) := by
  induction a with
  | nil => simp [splitFirstComma]
  | cons c cs ih =>
    have hc : ¬ c = ',' := fun h => ha (h ▸ List.mem_cons_self c cs)
    rw [List.cons_append, splitFirstComma, if_neg hc,
      ih (fun h => ha (List.mem_cons_of_mem c h))]

theorem splitFirstComma_eq_none {cs : List Char} :
    splitFirstComma cs = none ↔ ',' ∉ cs := by
  induction cs with
  | nil => simp [splitFirstComma]
  | cons c cs ih =>
    rw [splitFirstComma]
    split
    case isTrue h => subst h; simp
    case isFalse h =>
      constructor
      · intro hm
        cases hsp : splitFirstComma cs with
        | none => simp [List.mem_cons, Ne.symm h, ih.mp hsp]
        | some p => rw [hsp] at hm; exact absurd hm (by simp)
      · intro hm
        have : ',' ∉ cs := fun h2 => hm (List.mem_cons_of_mem c h2)
        rw [ih.mpr this]

/- =============================== claim C8 ================================ -/

/-- C8: in `load_guild_network`, a (stripped) non-blank, non-`#` line with at
least three whitespace tokens yields the edge `(parts[0], parts[2], w)` when
the second token parses as the number `w`, and the edge
`(parts[0], parts[-1], 1.0)` when it does not; blank lines, `#`-prefixed lines
and lines with fewer than three tokens are skipped (`none`), never an error. -/
theorem guild_line_spec (parseF : String → Option ℚ) (line : String) :
    (pyStrip line = "" → guildLine parseF line = none) ∧
    (startsWithHash (pyStrip line) = true → guildLine parseF line = none) ∧
    ((pySplitWS line).length < 3 → guildLine parseF line = none) ∧
    (pyStrip line ≠ "" → startsWithHash (pyStrip line) = false →
      3 ≤ (pySplitWS line).length →
      (∀ q, parseF ((pySplitWS line).getD 1 "") = some q →
        guildLine parseF line =
          some ⟨(pySplitWS line).getD 0 "", (pySplitWS line).getD 2 "", q⟩) ∧
      (parseF ((pySplitWS line).getD 1 "") = none →
        guildLine parseF line =
          some ⟨(pySplitWS line).getD 0 "", (pySplitWS line).getLastD "", 1⟩)) := by
  refine ⟨fun h => ?_, fun h => ?_, fun h => ?_, fun hne hh h3 => ?_⟩
  · simp [guildLine, h]
  · by_cases hb : pyStrip line = "" <;> simp [guildLine, h, hb]
  · rw [← pySplitWS_pyStrip] at h
    simp only [guildLine]
    repeat' split
    all_goals rfl
  · rw [← pySplitWS_pyStrip line]
    have h3s : ¬ (pySplitWS (pyStrip line)).length < 3 := by
      rw [pySplitWS_pyStrip]; omega
    constructor
    · intro q hq
      simp only [guildLine]
      rw [if_neg hne, if_neg (by simp [hh]), if_neg h3s, hq]
    · intro hq
      simp only [guildLine]
      rw [if_neg hne, if_neg (by simp [hh]), if_neg h3s, hq]

/-- Witness for C8: one numeric-middle-token line and one line whose middle
token fails to parse (edge goes to the LAST token with unit weight). -/
theorem guild_line_spec_witness :
    guildLine (fun s => if s = "2" then some (2 : ℚ) else none) "u 2 v" =
      some ⟨"u", "v", 2⟩ ∧
    guildLine (fun _ => none) "u x v w" = some ⟨"u", "w", 1⟩ := by
  constructor
  · have h := ((guild_line_spec (fun s => if s = "2" then some (2 : ℚ) else none)
      "u 2 v").2.2.2 (by decide) (by decide) (by decide)).1 2 (by decide)
    rw [show (pySplitWS "u 2 v").getD 0 "" = "u" by decide,
      show (pySplitWS "u 2 v").getD 2 "" = "v" by decide] at h
    exact h
  · have h := ((guild_line_spec (fun _ => none) "u x v w").2.2.2
      (by decide) (by decide) (by decide)).2 rfl
    rw [show (pySplitWS "u x v w").getD 0 "" = "u" by decide,
      show (pySplitWS "u x v w").getLastD "" = "w" by decide] at h
    exact h

/- =============================== claim C10 =============================== -/

/-- C10: `load_diamond_network` splits each (stripped, non-blank, non-`#`)
line at its FIRST comma only: a line of shape `a ++ "," ++ b` with `a`
comma-free — in particular one with several commas such as `a,b,c` — yields
the single edge from `strip(a)` to the entire stripped remainder `strip(b)`
with weight `1.0`; a line without a comma is skipped. -/
theorem diamond_line_spec (line : String) :
    (pyStrip line = "" → diamondLine line = none) ∧
    (startsWithHash (pyStrip line) = true → diamondLine line = none) ∧
    (',' ∉ (pyStrip line).data → diamondLine line = none) ∧
    (pyStrip line ≠ "" → startsWithHash (pyStrip line) = false →
      ∀ a b : List Char, (pyStrip line).data = a ++ ',' :: b → ',' ∉ a →
        diamondLine line =
          some ⟨String.mk (stripChars a), String.mk (stripChars b), 1⟩) := by
  refine ⟨fun h => ?_, fun h => ?_, fun h => ?_, fun hne hh a b hab ha => ?_⟩
  · simp [diamondLine, h]
  · by_cases hb : pyStrip line = "" <;> simp [diamondLine, h, hb]
  · simp only [diamondLine]
    split
    · rfl
    · split
      · rfl
      · rw [splitFirstComma_eq_none.mpr h]
  · simp only [diamondLine]
    rw [if_neg hne, if_neg (by simp [hh]), hab, splitFirstComma_append ha]

/-- Witness for C10: the line `a,b,c` has two commas and produces the single
edge from `a` to `b,c`. -/
theorem diamond_line_spec_witness :
    diamondLine "a,b,c" = some ⟨"a", "b,c", 1⟩ ∧ diamondLine "abc" = none := by
  constructor
  · have h := (diamond_line_spec "a,b,c").2.2.2 (by decide) (by decide)
      ['a'] ['b', ',', 'c'] (by decide) (by decide)
    rw [show String.mk (stripChars ['a']) = "a" by decide,
      show String.mk (stripChars ['b', ',', 'c']) = "b,c" by decide] at h
    exact h
  · exact (diamond_line_spec "abc").2.2.1 (by decide)

/- =============================== claim C9 ================================ -/

/-- C9: with a positive `min_score`, `load_string_network` inserts a row's
edge iff its `combined_score` is at least `min_score` (an edge `u — v` exists
iff some row with those endpoints passes the threshold), and every stored
edge weight in the resulting graph is at least `min_score`. -/
theorem string_min_score_filter (rows : List StringRow) (minScore : Int)
    (hpos : 0 < minScore) :
    (∀ u v : String, (load_string_network rows minScore).adjacent u v ↔
      ∃ r ∈ rows, minScore ≤ r.score ∧
        ((r.protein1 = u ∧ r.protein2 = v) ∨ (r.protein1 = v ∧ r.protein2 = u))) ∧
    (∀ u v : String, ∀ q : ℚ,
      (load_string_network rows minScore).weightOf u v = some q →
        (minScore : ℚ) ≤ q) := by
  constructor
  · intro u v
    show v ∈ (load_string_network rows minScore).neighbors u ↔ _
    rw [mem_neighbors_iff]
    simp only [load_string_network, if_pos hpos, List.mem_map, List.mem_filter]
    constructor
    · rintro ⟨e, ⟨r, ⟨hr, hs⟩, rfl⟩, hm⟩
      dsimp only at hm
      exact ⟨r, hr, by simpa using hs, by tauto⟩
    · rintro ⟨r, hr, hs, hm⟩
      refine ⟨⟨r.protein1, r.protein2, (r.score : ℚ)⟩,
        ⟨r, ⟨hr, by simpa using hs⟩, rfl⟩, ?_⟩
      dsimp only
      tauto
  · intro u v q h
    unfold Graph.weightOf at h
    rw [Option.map_eq_some'] at h
    obtain ⟨e, he, hw⟩ := h
    have hmem : e ∈ (load_string_network rows minScore).edges :=
      List.mem_of_mem_filter (List.mem_of_mem_getLast? he)
    simp only [load_string_network, if_pos hpos, List.mem_map, List.mem_filter] at hmem
    obtain ⟨r, ⟨_, hs⟩, rfl⟩ := hmem
    rw [← hw]
    exact_mod_cast by simpa using hs

/-- Witness for C9: with threshold 700 the 800-score edge is present and the
300-score edge is absent. -/
theorem string_min_score_filter_witness :
    (0 : Int) < 700 ∧
    (load_string_network [⟨"A", "B", 800⟩, ⟨"A", "C", 300⟩] 700).adjacent "A" "B" ∧
    ¬ (load_string_network [⟨"A", "B", 800⟩, ⟨"A", "C", 300⟩] 700).adjacent "A" "C" := by
  have h := string_min_score_filter [⟨"A", "B", 800⟩, ⟨"A", "C", 300⟩] 700 (by decide)
  refine ⟨by decide, ?_, ?_⟩
  · exact (h.1 "A" "B").mpr ⟨⟨"A", "B", 800⟩, by simp, by decide, Or.inl ⟨rfl, rfl⟩⟩
  · intro hc
    exact absurd ((h.1 "A" "C").mp hc) (by decide)

/- =============================== claim C7 ================================ -/

/-- Counterexample for C7: on the empty graph neither `rwr_scores` nor
`diamond_iterative` aborts with an error — both return ordinary empty
results. -/
theorem empty_graph_no_error :
    rwr_scores ⟨[]⟩ ["A"] (85 / 100) (1 / 1000000000) 100 = .ok [] ∧
    diamond_iterative ⟨[]⟩ ["A"] 50 = .ok [] :=
  ⟨rfl, rfl⟩

/-- C7 (amended): on a graph with zero nodes, `rwr_scores` returns the empty
score mapping and `diamond_iterative` the empty ranking, without raising any
error; the fatal abort for empty inputs happens outside these functions. -/
theorem empty_graph_returns_empty (g : Graph) (seeds : List String) (alpha tol : ℚ)
    (maxIter steps : Nat) (h : g.nodes = []) :
    rwr_scores g seeds alpha tol maxIter = .ok [] ∧
    diamond_iterative g seeds steps = .ok [] := by
  constructor
  · unfold rwr_scores
    rw [if_pos h]
  · unfold diamond_iterative
    rw [if_pos (by simp [Graph.numberOfNodes, h])]

/-- Witness for C7 (amended) at the concrete empty graph. -/
theorem empty_graph_returns_empty_witness :
    rwr_scores ⟨[]⟩ ["ENO1"] (85 / 100) (1 / 1000000000) 100 = .ok [] ∧
    diamond_iterative ⟨[]⟩ ["ENO1"] 50 = .ok [] :=
  empty_graph_returns_empty ⟨[]⟩ ["ENO1"] (85 / 100) (1 / 1000000000) 100 50 rfl

/- =============================== claim C5 ================================ -/

theorem resolvedSeeds_idem (g : Graph) (seeds : List String) :
    resolvedSeeds g (resolvedSeeds g seeds) = resolvedSeeds g seeds := by
  simp [resolvedSeeds, List.filter_filter]

/-- C5: on a non-empty graph, `rwr_scores` and `diamond_iterative` fail with
an input-validation error exactly when no supplied seed is a node of the
graph; and both compute from the resolved subset only (replacing the seed
list by its resolved sublist changes nothing). -/
theorem seed_validation (g : Graph) (seeds : List String) (alpha tol : ℚ)
    (maxIter steps : Nat) (hne : g.nodes ≠ []) :
    ((∃ msg, rwr_scores g seeds alpha tol maxIter = .error msg) ↔
      resolvedSeeds g seeds = []) ∧
    ((∃ msg, diamond_iterative g seeds steps = .error msg) ↔
      resolvedSeeds g seeds = []) ∧
    rwr_scores g seeds alpha tol maxIter =
      rwr_scores g (resolvedSeeds g seeds) alpha tol maxIter ∧
    diamond_iterative g seeds steps =
      diamond_iterative g (resolvedSeeds g seeds) steps := by
  have hN : ¬ g.numberOfNodes = 0 := by
    simp [Graph.numberOfNodes, List.length_eq_zero]
    exact hne
  refine ⟨?_, ?_, ?_, ?_⟩
  · unfold rwr_scores
    rw [if_neg hne]
    by_cases hsr : resolvedSeeds g seeds = [] <;> simp [hsr]
  · unfold diamond_iterative
    rw [if_neg hN]
    unfold resolvedSeeds
    by_cases hsr : seeds.filter (fun s => s ∈ g.nodes) = [] <;>
      simp [List.dedup_eq_nil, hsr]
  · unfold rwr_scores
    rw [resolvedSeeds_idem]
  · unfold diamond_iterative resolvedSeeds
    rw [List.filter_filter]
    simp only [Bool.and_self]

/-- Witness for C5 on a one-edge graph: an unresolvable seed list errors, and
a partially resolvable one computes from its resolved subset. -/
theorem seed_validation_witness :
    (∃ msg, rwr_scores ⟨[⟨"A", "B", 1⟩]⟩ ["Z"] 1 1 1 = .error msg) ∧
    rwr_scores ⟨[⟨"A", "B", 1⟩]⟩ ["A", "Z"] 1 1 1 =
      rwr_scores ⟨[⟨"A", "B", 1⟩]⟩ (resolvedSeeds ⟨[⟨"A", "B", 1⟩]⟩ ["A", "Z"]) 1 1 1 := by
  have h1 := seed_validation ⟨[⟨"A", "B", 1⟩]⟩ ["Z"] 1 1 1 1 (by decide)
  have h2 := seed_validation ⟨[⟨"A", "B", 1⟩]⟩ ["A", "Z"] 1 1 1 1 (by decide)
  exact ⟨h1.1.mpr (by decide), h2.2.2.1⟩

/- =============================== claim C6 ================================ -/

theorem dedup_filter_comm (p : String → Bool) (l : List String) :
    l.dedup.filter p = (l.filter p).dedup := by
  induction l with
  | nil => rfl
  | cons a l ih =>
    by_cases ha : a ∈ l
    · rw [List.dedup_cons_of_mem ha, ih, List.filter_cons]
      split
      · rw [List.dedup_cons_of_mem]
        exact List.mem_filter.mpr ⟨ha, by assumption⟩
      · rfl
    · rw [List.dedup_cons_of_not_mem ha, List.filter_cons, List.filter_cons]
      split
      · rw [List.dedup_cons_of_not_mem (fun hc => ha (List.mem_of_mem_filter hc)), ih]
      · exact ih

/-- Counterexample for C6: the duplicated seed list `["A", "A"]` gives a
DIFFERENT score mapping than its deduplication `["A"]` — each resolved
occurrence enlarges the denominator of the restart mass (`1/len(seeds)`
after filtering, duplicates included), so the duplicated list halves every
score. -/
theorem rwr_duplicate_seeds_matter :
    rwr_scores ⟨[⟨"A", "B", 1⟩]⟩ ["A", "A"] (1 / 2) 0 0 ≠
      rwr_scores ⟨[⟨"A", "B", 1⟩]⟩ (["A", "A"].dedup) (1 / 2) 0 0 := by
  norm_num +decide [rwr_scores, resolvedSeeds, Graph.nodes, nodesAux, insertNode, rwrIter,
    multiply_Pt, Graph.neighbors, neighAux, Graph.degree, addAt, List.indexOf, List.findIdx,
    List.findIdx.go, List.dedup]

/-- C6 (amended): deduplicating the seed list leaves the RWR result unchanged
PROVIDED the resolved sublist has no duplicates (duplicates among seeds that
do not resolve against the graph are harmless); when resolved seeds repeat,
the result changes, as the counterexample shows. -/
theorem rwr_dedup_seeds (g : Graph) (seeds : List String) (alpha tol : ℚ)
    (maxIter : Nat) (h : (resolvedSeeds g seeds).Nodup) :
    rwr_scores g seeds alpha tol maxIter = rwr_scores g seeds.dedup alpha tol maxIter := by
  have hres : resolvedSeeds g seeds.dedup = resolvedSeeds g seeds := by
    unfold resolvedSeeds
    rw [dedup_filter_comm]
    exact List.Nodup.dedup h
  unfold rwr_scores
  rw [hres]

/-- Witness for C6 (amended): duplicates among unresolved seeds are
harmless. -/
theorem rwr_dedup_seeds_witness :
    (resolvedSeeds ⟨[⟨"A", "B", 1⟩]⟩ ["A", "X", "X"]).Nodup ∧
    rwr_scores ⟨[⟨"A", "B", 1⟩]⟩ ["A", "X", "X"] 1 1 1 =
      rwr_scores ⟨[⟨"A", "B", 1⟩]⟩ (["A", "X", "X"].dedup) 1 1 1 :=
  ⟨by decide, rwr_dedup_seeds ⟨[⟨"A", "B", 1⟩]⟩ ["A", "X", "X"] 1 1 1 (by decide)⟩

/- ======================== hypergeometric lemmas ========================== -/

theorem pyComb_natCast (a b : Nat) : pyComb (a : Int) (b : Int) = (a.choose b : Int) := by
  unfold pyComb
  split
  case isTrue h =>
    rcases h with h | h
    · omega
    · have hab : a < b := by exact_mod_cast h
      rw [Nat.choose_eq_zero_of_lt hab]
      simp
  case isFalse h =>
    rw [Int.toNat_natCast, Int.toNat_natCast]

theorem pyComb_nonneg (n k : Int) : 0 ≤ pyComb n k := by
  unfold pyComb
  split
  · exact le_refl 0
  · positivity

theorem hypergeomPmf_natCast (i N K n : Nat) (hK : K ≤ N) (hi : i ≤ n) :
    hypergeomPmf (i : Int) (N : Int) (K : Int) (n : Int) =
      (K.choose i * (N - K).choose (n - i) : ℚ) / (N.choose n : ℚ) := by
  unfold hypergeomPmf
  have h1 : (N : Int) - K = ((N - K : Nat) : Int) := by omega
  have h2 : (n : Int) - i = ((n - i : Nat) : Int) := by omega
  rw [h1, h2, pyComb_natCast, pyComb_natCast, pyComb_natCast]
  split
  case isTrue h =>
    have hc : N.choose n = 0 := by exact_mod_cast h
    rw [hc]
    simp
  case isFalse h =>
    push_cast
    ring

theorem hypergeomPmf_nonneg (i N K n : Int) : 0 ≤ hypergeomPmf i N K n := by
  unfold hypergeomPmf
  split
  · exact le_refl 0
  · apply div_nonneg
    · exact_mod_cast mul_nonneg (pyComb_nonneg _ _) (pyComb_nonneg _ _)
    · exact_mod_cast pyComb_nonneg _ _

theorem list_range_map_sum (n : Nat) (f : Nat → ℚ) :
    ((List.range n).map f).sum = ∑ i ∈ Finset.range n, f i := by
  induction n with
  | zero => simp
  | succ m ih =>
    rw [List.range_succ, List.map_append, List.sum_append, Finset.sum_range_succ, ih]
    simp

/-- The source's `_hypergeom_sf(k - 1, N, K, n)` equals the mathematical upper
tail `P[X >= k]` summed over the full support `k..n` (terms beyond
`min(n, K)` vanish because their binomial coefficient is zero). -/
theorem hypergeomSf_eq_tail (k N K n : Nat) (hK : K ≤ N) :
    hypergeomSf ((k : Int) - 1) (N : Int) (K : Int) (n : Int) = hypergeomTail k N K n := by
  unfold hypergeomSf hypergeomTail
  have hmin : min (n : Int) (K : Int) = ((min n K : Nat) : Int) := by
    rw [Nat.cast_min]
  have hkk : (k : Int) - 1 + 1 = (k : Int) := by ring
  split
  case isTrue h =>
    rw [hkk, hmin] at h
    have hk : min n K < k := by exact_mod_cast h
    symm
    apply Finset.sum_eq_zero
    intro i hi
    rw [Finset.mem_Icc] at hi
    have hKi : K < i := by
      rcases le_total n K with hnk | hkn
      · omega
      · rw [min_eq_right hkn] at hk
        omega
    rw [Nat.choose_eq_zero_of_lt hKi]
    simp
  case isFalse h =>
    rw [hkk, hmin] at h
    have hk : k ≤ min n K := by
      push_neg at h
      exact_mod_cast h
    unfold intRange
    have hlen : ((min (n : Int) (K : Int) + 1) - ((k : Int) - 1 + 1)).toNat = min n K + 1 - k := by
      rw [hmin]; omega
    rw [hlen, List.map_map, list_range_map_sum]
    have hstep : ∀ j ∈ Finset.range (min n K + 1 - k),
        ((fun i => hypergeomPmf i N K n) ∘ fun j : Nat => (k : Int) - 1 + 1 + (j : Int)) j =
          (K.choose (k + j) * (N - K).choose (n - (k + j)) : ℚ) / (N.choose n : ℚ) := by
      intro j hj
      rw [Finset.mem_range] at hj
      have hij : k + j ≤ n := by omega
      show hypergeomPmf ((k : Int) - 1 + 1 + (j : Int)) N K n = _
      have hcast : (k : Int) - 1 + 1 + (j : Int) = ((k + j : Nat) : Int) := by push_cast; ring
      rw [hcast, hypergeomPmf_natCast (k + j) N K n hK hij]
    refine (Finset.sum_congr rfl hstep).trans ?_
    rw [← Nat.Ico_succ_right, Finset.sum_Ico_eq_sum_range]
    apply Finset.sum_subset
    · apply Finset.range_subset.mpr
      omega
    · intro j hjb hjs
      rw [Finset.mem_range] at hjb hjs
      have hKj : K < k + j := by
        rcases le_total n K with hnk | hkn
        · omega
        · rw [min_eq_right hkn] at hjs
          omega
      rw [Nat.choose_eq_zero_of_lt hKj]
      simp

theorem hypergeomTail_nonneg (k N K n : Nat) : 0 ≤ hypergeomTail k N K n := by
  apply Finset.sum_nonneg
  intro i _
  positivity

theorem hypergeomTail_le_one (k N K n : Nat) (hK : K ≤ N) (hn : n ≤ N) :
    hypergeomTail k N K n ≤ 1 := by
  have hpos : 0 < (N.choose n : ℚ) := by exact_mod_cast Nat.choose_pos hn
  unfold hypergeomTail
  have hsub : Finset.Icc k n ⊆ Finset.range (n + 1) := by
    intro i hi
    rw [Finset.mem_Icc] at hi
    rw [Finset.mem_range]
    omega
  have h1 : (∑ i ∈ Finset.Icc k n, (K.choose i * (N - K).choose (n - i) : ℚ) / (N.choose n : ℚ)) ≤
      ∑ i ∈ Finset.range (n + 1), (K.choose i * (N - K).choose (n - i) : ℚ) / (N.choose n : ℚ) := by
    apply Finset.sum_le_sum_of_subset_of_nonneg hsub
    intro i _ _
    positivity
  refine h1.trans ?_
  rw [← Finset.sum_div, div_le_one hpos]
  have hv : ∑ i ∈ Finset.range (n + 1), K.choose i * (N - K).choose (n - i) = N.choose n := by
    have hvd := Nat.add_choose_eq K (N - K) n
    rw [Nat.add_sub_cancel' hK] at hvd
    rw [hvd, Finset.Nat.sum_antidiagonal_eq_sum_range_succ_mk]
  calc ∑ i ∈ Finset.range (n + 1), (K.choose i * (N - K).choose (n - i) : ℚ)
      = ((∑ i ∈ Finset.range (n + 1), K.choose i * (N - K).choose (n - i) : Nat) : ℚ) := by
        push_cast
        rfl
    _ ≤ (N.choose n : ℚ) := by rw [hv]

theorem hypergeomSf_unit (k N K n : Nat) (hK : K ≤ N) (hn : n ≤ N) :
    0 ≤ hypergeomSf ((k : Int) - 1) N K n ∧ hypergeomSf ((k : Int) - 1) N K n ≤ 1 := by
  rw [hypergeomSf_eq_tail k N K n hK]
  exact ⟨hypergeomTail_nonneg k N K n, hypergeomTail_le_one k N K n hK hn⟩

/- ===================== selection (argmin) lemmas ========================= -/

theorem find?_congr {α : Type} (p q : α → Bool) :
    ∀ l : List α, (∀ a ∈ l, p a = q a) → l.find? p = l.find? q := by
  intro l
  induction l with
  | nil => intro _; rfl
  | cons a l ih =>
    intro h
    rw [List.find?_cons, List.find?_cons, h a (List.mem_cons_self a l)]
    split
    · rfl
    · exact ih (fun b hb => h b (List.mem_cons_of_mem a hb))

theorem foldl_min_mem (f : String × ℚ → ℚ) :
    ∀ (xs : List (String × ℚ)) (x : String × ℚ),
      xs.foldl (fun b y => if f y < f b then y else b) x ∈ x :: xs := by
  intro xs
  induction xs with
  | nil => intro x; simp
  | cons y ys ih =>
    intro x
    rw [List.foldl_cons]
    rcases List.mem_cons.mp (ih (if f y < f x then y else x)) with heq | hmem
    · rw [heq]
      split
      · exact List.mem_cons_of_mem x (List.mem_cons_self y ys)
      · exact List.mem_cons_self x (y :: ys)
    · exact List.mem_cons_of_mem x (List.mem_cons_of_mem y hmem)

theorem pyMinBy_mem {f : String × ℚ → ℚ} {l : List (String × ℚ)} {r : String × ℚ}
    (h : pyMinBy f l = some r) : r ∈ l := by
  cases l with
  | nil => exact absurd h (by simp [pyMinBy])
  | cons x xs =>
    rw [pyMinBy] at h
    have := foldl_min_mem f xs x
    rw [Option.some.injEq] at h
    rw [← h]
    exact this

theorem find?_min_aux (f : String × ℚ → ℚ) :
    ∀ (xs : List (String × ℚ)) (x : String × ℚ),
      (x :: xs).find? (fun c => (x :: xs).all (fun y => f c ≤ f y)) =
        some (xs.foldl (fun b y => if f y < f b then y else b) x) := by
  intro xs
  induction xs with
  | nil =>
    intro x
    simp [List.find?_cons, List.all_cons]
  | cons y ys ih =>
    intro x
    rw [List.foldl_cons]
    by_cases hy : f y < f x
    · rw [if_pos hy]
      have hx : ((x :: y :: ys).all (fun z => decide (f x ≤ f z))) = false := by
        simp only [List.all_cons, Bool.and_eq_false_iff, decide_eq_false_iff_not]
        exact Or.inr (Or.inl (not_le.mpr hy))
      rw [@List.find?_cons_of_neg _ (fun c => (x :: y :: ys).all fun z => decide (f c ≤ f z))
        x (y :: ys) (by
          show ¬ ((x :: y :: ys).all fun z => decide (f x ≤ f z)) = true
          rw [hx]
          exact Bool.false_ne_true)]
      have hcongr : ∀ c ∈ y :: ys,
          ((x :: y :: ys).all (fun z => decide (f c ≤ f z))) =
            ((y :: ys).all (fun z => decide (f c ≤ f z))) := by
        intro c _
        simp only [List.all_cons, ← Bool.and_assoc]
        cases hcy : decide (f c ≤ f y) with
        | false => simp [hcy]
        | true =>
          have h1 : f c ≤ f y := of_decide_eq_true hcy
          have h2 : decide (f c ≤ f x) = true := decide_eq_true (h1.trans hy.le)
          simp [hcy, h2]
      rw [find?_congr _ _ _ hcongr]
      exact ih y
    · rw [if_neg hy]
      have hxy : f x ≤ f y := le_of_not_lt hy
      by_cases hall : (ys.all fun z => decide (f x ≤ f z)) = true
      · have hpx : ((x :: ys).all (fun z => decide (f x ≤ f z))) = true := by
          simp only [List.all_cons, Bool.and_eq_true, decide_eq_true_eq]
          exact ⟨le_refl _, hall⟩
        have hfold : ys.foldl (fun b y => if f y < f b then y else b) x = x := by
          have h2 := ih x
          rw [@List.find?_cons_of_pos _ (fun c => (x :: ys).all fun z => decide (f c ≤ f z))
            x ys hpx, Option.some.injEq] at h2
          exact h2.symm
        rw [hfold]
        apply List.find?_cons_of_pos
        simp only [List.all_cons, Bool.and_eq_true, decide_eq_true_eq]
        exact ⟨le_refl _, hxy, hall⟩
      · have hIH := ih x
        rw [@List.find?_cons_of_neg _ (fun c => (x :: ys).all fun z => decide (f c ≤ f z))
          x ys (by
            simp only [List.all_cons, Bool.and_eq_true, decide_eq_true_eq, not_and]
            intro _
            exact hall)] at hIH
        rw [@List.find?_cons_of_neg _ (fun c => (x :: y :: ys).all fun z => decide (f c ≤ f z))
          x (y :: ys) (by
            simp only [List.all_cons, Bool.and_eq_true, decide_eq_true_eq, not_and]
            intro _ _
            exact hall)]
        rw [@List.find?_cons_of_neg _ (fun c => (x :: y :: ys).all fun z => decide (f c ≤ f z))
          y ys (by
            simp only [List.all_cons, Bool.and_eq_true, decide_eq_true_eq, not_and]
            intro hyx _
            have hxeq : f x = f y := le_antisymm hxy hyx
            intro hys
            apply hall
            rw [List.all_eq_true] at hys ⊢
            intro z hz
            have h3 := hys z hz
            simp only [decide_eq_true_eq] at h3 ⊢
            rw [hxeq]
            exact h3)]
        have hcongr2 : ∀ c ∈ ys,
            ((x :: y :: ys).all (fun z => decide (f c ≤ f z))) =
              ((x :: ys).all (fun z => decide (f c ≤ f z))) := by
          intro c _
          simp only [List.all_cons, ← Bool.and_assoc]
          cases hcx : decide (f c ≤ f x) with
          | false => simp [hcx]
          | true =>
            have h1 : f c ≤ f x := of_decide_eq_true hcx
            have h2 : decide (f c ≤ f y) = true := decide_eq_true (h1.trans hxy)
            simp [hcx, h2, Bool.and_comm]
        rw [find?_congr _ _ _ hcongr2]
        exact hIH

/-- Python's `min(l, key=f)` (first strict improvement wins) picks exactly the
first element of `l` whose key is less than or equal to every key in `l`. -/
theorem pyMinBy_eq_specSelect (l : List (String × ℚ)) :
    pyMinBy Prod.snd l = specSelect l := by
  cases l with
  | nil => rfl
  | cons x xs =>
    rw [pyMinBy, specSelect, find?_min_aux Prod.snd xs x]

/- ======================= DIAMOnD candidate lemmas ======================== -/

theorem mem_diamondCandidates {g : Graph} {current : List String} {c : String} {p : ℚ} :
    (c, p) ∈ diamondCandidates g current ↔
      c ∈ g.nodes ∧ c ∉ current ∧ (g.neighbors c).length ≠ 0 ∧
        p = hypergeomSf ((((g.neighbors c).filter (fun v => v ∈ current)).length : Int) - 1)
          (g.numberOfNodes : Int) (current.length : Int) ((g.neighbors c).length : Int) := by
  unfold diamondCandidates
  rw [List.mem_filterMap]
  constructor
  · rintro ⟨a, ha, hfa⟩
    by_cases h1 : a ∈ current
    · rw [if_pos h1] at hfa
      exact absurd hfa (by simp)
    · rw [if_neg h1] at hfa
      by_cases h2 : (g.neighbors a).length = 0
      · rw [if_pos h2] at hfa
        exact absurd hfa (by simp)
      · rw [if_neg h2, Option.some.injEq, Prod.mk.injEq] at hfa
        obtain ⟨rfl, rfl⟩ := hfa
        exact ⟨ha, h1, h2, rfl⟩
  · rintro ⟨hc, h1, h2, rfl⟩
    exact ⟨c, hc, by rw [if_neg h1, if_neg h2]⟩

theorem current_length_le (g : Graph) (current : List String)
    (hnd : current.Nodup) (hsub : ∀ c ∈ current, c ∈ g.nodes) :
    current.length ≤ g.numberOfNodes :=
  List.Subperm.length_le (List.Nodup.subperm hnd hsub)

theorem degree_le_numberOfNodes (g : Graph) (c : String) :
    (g.neighbors c).length ≤ g.numberOfNodes :=
  List.Subperm.length_le
    (List.Nodup.subperm (g.neighbors_nodup c) (fun _ hv => neighbors_subset_nodes hv))

theorem diamondCandidates_eq_spec (g : Graph) (current : List String)
    (hnd : current.Nodup) (hsub : ∀ c ∈ current, c ∈ g.nodes) :
    diamondCandidates g current = diamondCandidatesSpec g current := by
  unfold diamondCandidates diamondCandidatesSpec
  apply List.filterMap_congr
  intro c _
  by_cases h1 : c ∈ current
  · rw [if_pos h1, if_pos h1]
  · rw [if_neg h1, if_neg h1]
    by_cases h2 : (g.neighbors c).length = 0
    · rw [if_pos h2, if_pos (show g.degree c = 0 from h2)]
    · rw [if_neg h2, if_neg (show ¬ g.degree c = 0 from h2)]
      rw [Option.some.injEq, Prod.mk.injEq]
      exact ⟨rfl, hypergeomSf_eq_tail _ _ _ _ (current_length_le g current hnd hsub)⟩

theorem nodup_append_singleton {current : List String} {c : String}
    (hnd : current.Nodup) (hc : c ∉ current) : (current ++ [c]).Nodup := by
  rw [List.nodup_append]
  exact ⟨hnd, List.nodup_singleton c,
    fun a ha hmem => hc ((List.mem_singleton.mp hmem) ▸ ha)⟩

theorem diamondLoop_eq_spec (g : Graph) : ∀ (fuel step : Nat) (current : List String),
    current.Nodup → (∀ c ∈ current, c ∈ g.nodes) →
    diamondLoop g fuel step current = diamondLoopSpec g fuel step current := by
  intro fuel
  induction fuel with
  | zero => intro step current _ _; rfl
  | succ fuel ih =>
    intro step current hnd hsub
    rw [diamondLoop, diamondLoopSpec, ← diamondCandidates_eq_spec g current hnd hsub,
      ← pyMinBy_eq_specSelect]
    cases hsel : pyMinBy Prod.snd (diamondCandidates g current) with
    | none => rfl
    | some cp =>
      obtain ⟨c, p⟩ := cp
      have hmem := mem_diamondCandidates.mp (pyMinBy_mem hsel)
      dsimp only
      rw [ih (step + 1) (current ++ [c]) (nodup_append_singleton hnd hmem.2.1)
        (fun x hx => by
          rcases List.mem_append.mp hx with h | h
          · exact hsub x h
          · rw [List.mem_singleton.mp h]
            exact hmem.1)]

/- =============================== claim C2 ================================ -/

/-- C2: `diamond_iterative` coincides with the specification-side DIAMOnD:
at every step each node outside the current seed set with degree `n > 0` is
scored with the exact-binomial upper tail `P[X >= k]` for
`X ~ Hypergeometric(N, K, n)` (`N` the fixed node count, `K` the current seed
count, `k` its neighbors inside the seed set), degree-0 nodes are never
candidates, and the minimum-score candidate is selected with ties broken by
encounter order over the graph's node enumeration. -/
theorem diamond_matches_spec (g : Graph) (seedSet : List String) (steps : Nat) :
    diamond_iterative g seedSet steps = diamond_spec g seedSet steps := by
  simp only [diamond_iterative, diamond_spec]
  by_cases hN : g.numberOfNodes = 0
  · rw [if_pos hN, if_pos hN]
  · rw [if_neg hN, if_neg hN]
    by_cases hs : (seedSet.filter (fun s => s ∈ g.nodes)).dedup = []
    · rw [if_pos hs, if_pos hs]
    · rw [if_neg hs, if_neg hs, diamondLoop_eq_spec g steps 1 _ (List.nodup_dedup _)
        (fun c hc => of_decide_eq_true (List.mem_filter.mp (List.mem_dedup.mp hc)).2)]

/- =============================== claim C4 ================================ -/

theorem diamondLoop_invariants (g : Graph) : ∀ (fuel step : Nat) (current : List String),
    current.Nodup → (∀ c ∈ current, c ∈ g.nodes) →
    (diamondLoop g fuel step current).length ≤ fuel ∧
    ((diamondLoop g fuel step current).map (fun t => t.2.2)) =
      List.range' step (diamondLoop g fuel step current).length ∧
    ((diamondLoop g fuel step current).map (fun t => t.1)).Nodup ∧
    (∀ t ∈ diamondLoop g fuel step current, t.1 ∈ g.nodes ∧ t.1 ∉ current) ∧
    (∀ t ∈ diamondLoop g fuel step current, 0 ≤ t.2.1 ∧ t.2.1 ≤ 1) := by
  intro fuel
  induction fuel with
  | zero => intro step current _ _; simp [diamondLoop]
  | succ fuel ih =>
    intro step current hnd hsub
    rw [diamondLoop]
    cases hsel : pyMinBy Prod.snd (diamondCandidates g current) with
    | none => simp
    | some cp =>
      obtain ⟨c, p⟩ := cp
      dsimp only
      have hmem := mem_diamondCandidates.mp (pyMinBy_mem hsel)
      have hnd2 := nodup_append_singleton hnd hmem.2.1
      have hsub2 : ∀ x ∈ current ++ [c], x ∈ g.nodes := by
        intro x hx
        rcases List.mem_append.mp hx with h | h
        · exact hsub x h
        · rw [List.mem_singleton.mp h]
          exact hmem.1
      obtain ⟨ih1, ih2, ih3, ih4, ih5⟩ := ih (step + 1) (current ++ [c]) hnd2 hsub2
      refine ⟨?_, ?_, ?_, ?_, ?_⟩
      · simpa using Nat.succ_le_succ ih1
      · rw [List.map_cons, List.length_cons, List.range'_succ, ih2]
      · rw [List.map_cons, List.nodup_cons]
        refine ⟨?_, ih3⟩
        intro hcin
        rw [List.mem_map] at hcin
        obtain ⟨t, ht, hteq⟩ := hcin
        apply (ih4 t ht).2
        rw [hteq]
        exact List.mem_append.mpr (Or.inr (List.mem_singleton.mpr rfl))
      · intro t ht
        rcases List.mem_cons.mp ht with rfl | ht2
        · exact ⟨hmem.1, hmem.2.1⟩
        · have h4 := ih4 t ht2
          exact ⟨h4.1, fun hcur => h4.2 (List.mem_append.mpr (Or.inl hcur))⟩
      · intro t ht
        rcases List.mem_cons.mp ht with rfl | ht2
        · dsimp only
          rw [hmem.2.2.2]
          exact hypergeomSf_unit _ _ _ _ (current_length_le g current hnd hsub)
            (degree_le_numberOfNodes g c)
        · exact ih5 t ht2

/-- C4: every `diamond_iterative` result satisfies the ranking invariants —
at most `steps` rows, `step_added` exactly `1, 2, 3, ...`, no node selected
twice, every selected node a graph node outside the initial (resolved,
deduplicated) seed set (the working seed set grows by exactly one previously
unselected node per row), every score in `[0, 1]`; and when every node
outside the seed set has degree 0 the result is the empty ranking, not an
error. -/
theorem diamond_result_invariants (g : Graph) (seedSet : List String) (steps : Nat)
    (res : List (String × ℚ × Nat))
    (hres : diamond_iterative g seedSet steps = .ok res) :
    res.length ≤ steps ∧
    res.map (fun t => t.2.2) = List.range' 1 res.length ∧
    (res.map (fun t => t.1)).Nodup ∧
    (∀ t ∈ res, t.1 ∈ g.nodes ∧ t.1 ∉ (seedSet.filter (fun s => s ∈ g.nodes)).dedup) ∧
    (∀ t ∈ res, 0 ≤ t.2.1 ∧ t.2.1 ≤ 1) ∧
    ((∀ c ∈ g.nodes, c ∉ (seedSet.filter (fun s => s ∈ g.nodes)).dedup →
        (g.neighbors c).length = 0) → res = []) := by
  simp only [diamond_iterative] at hres
  by_cases hN : g.numberOfNodes = 0
  · rw [if_pos hN, Except.ok.injEq] at hres
    subst hres
    simp
  · rw [if_neg hN] at hres
    by_cases hs : (seedSet.filter (fun s => s ∈ g.nodes)).dedup = []
    · rw [if_pos hs] at hres
      exact absurd hres (by simp)
    · rw [if_neg hs, Except.ok.injEq] at hres
      subst hres
      have hnd := List.nodup_dedup (seedSet.filter (fun s => s ∈ g.nodes))
      have hsub : ∀ c ∈ (seedSet.filter (fun s => s ∈ g.nodes)).dedup, c ∈ g.nodes :=
        fun c hc => of_decide_eq_true (List.mem_filter.mp (List.mem_dedup.mp hc)).2
      obtain ⟨h1, h2, h3, h4, h5⟩ := diamondLoop_invariants g steps 1
        ((seedSet.filter (fun s => s ∈ g.nodes)).dedup) hnd hsub
      refine ⟨h1, h2, h3, h4, h5, ?_⟩
      intro hdeg
      have hcand : diamondCandidates g ((seedSet.filter (fun s => s ∈ g.nodes)).dedup) = [] := by
        unfold diamondCandidates
        rw [List.filterMap_eq_nil_iff]
        intro c hc
        by_cases h1c : c ∈ (seedSet.filter (fun s => s ∈ g.nodes)).dedup
        · rw [if_pos h1c]
        · rw [if_neg h1c, if_pos (hdeg c hc h1c)]
      cases steps with
      | zero => rfl
      | succ fuel =>
        rw [diamondLoop, hcand]
        rfl

/-- Witness for C4 on a one-edge graph with seed `A` and `steps = 2`: the run
emits exactly one row `(B, 1/2, 1)` (candidates are exhausted after one
step), and the invariants hold for it. -/
theorem diamond_result_invariants_witness :
    diamond_iterative ⟨[⟨"A", "B", 1⟩]⟩ ["A"] 2 = .ok [("B", 1 / 2, 1)] ∧
    [("B", (1 : ℚ) / 2, 1)].length ≤ 2 ∧
    [("B", (1 : ℚ) / 2, 1)].map (fun t => t.2.2) = List.range' 1 1 ∧
    (∀ t ∈ [("B", (1 : ℚ) / 2, 1)], 0 ≤ t.2.1 ∧ t.2.1 ≤ 1) := by
  have hres : diamond_iterative ⟨[⟨"A", "B", 1⟩]⟩ ["A"] 2 = .ok [("B", 1 / 2, 1)] := by
    norm_num +decide [diamond_iterative, diamondLoop, diamondCandidates, pyMinBy, Graph.nodes,
      nodesAux, insertNode, Graph.neighbors, neighAux, Graph.numberOfNodes, hypergeomSf,
      hypergeomPmf, pyComb, intRange, List.dedup, List.range, List.range.loop, Nat.choose,
      List.filterMap_cons, List.filterMap_nil, List.foldl, List.filter, Int.min_def,
      List.sum_cons, List.sum_nil]
  have h := diamond_result_invariants ⟨[⟨"A", "B", 1⟩]⟩ ["A"] 2 [("B", 1 / 2, 1)] hres
  exact ⟨hres, h.1, h.2.1, h.2.2.2.2.1⟩

/- ====================== RWR transition lemmas (C1) ======================= -/

theorem addAt_length (l : List ℚ) (i : Nat) (x : ℚ) : (addAt l i x).length = l.length :=
  List.length_set l i _

theorem addAt_getD (l : List ℚ) (i : Nat) (x : ℚ) (j : Nat) (hj : j < l.length) :
    (addAt l i x).getD j 0 = l.getD j 0 + if i = j then x else 0 := by
  unfold addAt
  by_cases hij : i = j
  · subst hij
    rw [if_pos rfl, List.getD_eq_getElem?_getD, List.getElem?_set_self hj,
      List.getD_eq_getElem _ _ hj]
    rfl
  · rw [if_neg hij, List.getD_eq_getElem?_getD, List.getElem?_set_ne hij,
      ← List.getD_eq_getElem?_getD, add_zero]

theorem foldl_addAt_length (idx : String → Nat) (c : ℚ) :
    ∀ (ns : List String) (y : List ℚ),
      (ns.foldl (fun a v => addAt a (idx v) c) y).length = y.length := by
  intro ns
  induction ns with
  | nil => intro y; rfl
  | cons v ns ih =>
    intro y
    rw [List.foldl_cons, ih, addAt_length]

theorem foldl_addAt_getD (idx : String → Nat) (c : ℚ) :
    ∀ (ns : List String) (y : List ℚ) (j : Nat), j < y.length →
      (ns.foldl (fun a v => addAt a (idx v) c) y).getD j 0 =
        y.getD j 0 + ((ns.filter (fun v => idx v = j)).length : ℚ) * c := by
  intro ns
  induction ns with
  | nil => intro y j _; simp
  | cons v ns ih =>
    intro y j hj
    rw [List.foldl_cons, ih (addAt y (idx v) c) j (by rw [addAt_length]; exact hj),
      addAt_getD y (idx v) c j hj, List.filter_cons]
    by_cases hv : idx v = j
    · rw [if_pos hv, if_pos (show decide (idx v = j) = true by simp [hv])]
      push_cast [List.length_cons]
      ring
    · rw [if_neg hv, if_neg (show ¬ decide (idx v = j) = true by simp [hv])]
      ring

theorem multAux_getD (g : Graph) (vec : List ℚ) (j : Nat) :
    ∀ (us : List String) (y : List ℚ), y.length = g.nodes.length → j < y.length →
      ((us.foldl (fun y2 u =>
          if g.degree u = 0 then y2
          else (g.neighbors u).foldl
            (fun a v => addAt a (g.nodes.indexOf v)
              (vec.getD (g.nodes.indexOf u) 0 / (g.degree u : ℚ))) y2) y).getD j 0) =
        y.getD j 0 + (us.map (fun u =>
          if g.degree u = 0 then 0
          else (((g.neighbors u).filter (fun v => g.nodes.indexOf v = j)).length : ℚ) *
            (vec.getD (g.nodes.indexOf u) 0 / (g.degree u : ℚ)))).sum := by
  intro us
  induction us with
  | nil => intro y _ _; simp
  | cons u us ih =>
    intro y hlen hj
    rw [List.foldl_cons, List.map_cons, List.sum_cons]
    by_cases hdu : g.degree u = 0
    · rw [if_pos hdu, if_pos hdu, ih y hlen hj]
      ring
    · rw [if_neg hdu, if_neg hdu,
        ih _ (by rw [foldl_addAt_length]; exact hlen)
          (by rw [foldl_addAt_length]; exact hj),
        foldl_addAt_getD _ _ _ y j hj]
      ring

theorem multAux_length (g : Graph) (vec : List ℚ) :
    ∀ (us : List String) (y : List ℚ),
      (us.foldl (fun y2 u =>
          if g.degree u = 0 then y2
          else (g.neighbors u).foldl
            (fun a v => addAt a (g.nodes.indexOf v)
              (vec.getD (g.nodes.indexOf u) 0 / (g.degree u : ℚ))) y2) y).length = y.length := by
  intro us
  induction us with
  | nil => intro y; rfl
  | cons u us ih =>
    intro y
    rw [List.foldl_cons]
    by_cases hdu : g.degree u = 0
    · rw [if_pos hdu, ih]
    · rw [if_neg hdu, ih, foldl_addAt_length]

theorem filter_eq_length_nodup {l : List String} (hnd : l.Nodup) (a : String) :
    (l.filter (fun v => v = a)).length = if a ∈ l then 1 else 0 := by
  induction l with
  | nil => simp
  | cons b l ih =>
    rw [List.filter_cons]
    by_cases hb : b = a
    · subst hb
      rw [if_pos (by simp), List.length_cons, ih (List.nodup_cons.mp hnd).2,
        if_neg (List.nodup_cons.mp hnd).1, if_pos (List.mem_cons_self b l)]
    · rw [if_neg (by simp [hb]), ih (List.nodup_cons.mp hnd).2]
      by_cases ha : a ∈ l
      · rw [if_pos ha, if_pos (List.mem_cons_of_mem b ha)]
      · rw [if_neg ha, if_neg (fun hc => by
          rcases List.mem_cons.mp hc with rfl | hc2
          exacts [hb rfl, ha hc2])]

theorem filter_indexOf_length (g : Graph) (u : String) (j : Nat) (hj : j < g.nodes.length) :
    (((g.neighbors u).filter (fun v => g.nodes.indexOf v = j)).length : ℚ) =
      if g.nodes[j] ∈ g.neighbors u then 1 else 0 := by
  have hcongr : ∀ v ∈ g.neighbors u,
      decide (g.nodes.indexOf v = j) = decide (v = g.nodes[j]) := by
    intro v hv
    have hvn : v ∈ g.nodes := neighbors_subset_nodes hv
    by_cases h : g.nodes.indexOf v = j
    · rw [decide_eq_true h, Eq.comm, decide_eq_true]
      subst h
      exact (List.getElem_indexOf (List.indexOf_lt_length.mpr hvn)).symm
    · rw [decide_eq_false h, Eq.comm, decide_eq_false]
      intro hveq
      apply h
      rw [hveq]
      exact List.indexOf_getElem (g.nodes_nodup) j hj
  rw [List.filter_congr hcongr, filter_eq_length_nodup (g.neighbors_nodup u)]
  split
  · rfl
  · rfl

/-- The source's scatter implementation of `P^T · vec` computes exactly the
specification transition: every positive-degree node sends `vec[u]/deg(u)` to
each of its neighbors. -/
theorem multiply_Pt_eq_spec (g : Graph) (vec : List ℚ) :
    multiply_Pt g vec = multiplySpec g vec := by
  apply List.ext_getElem
  · rw [multiply_Pt, multAux_length, List.length_replicate, multiplySpec, List.length_map]
  · intro j hj1 hj2
    have hjn : j < g.nodes.length := by
      rw [multiply_Pt, multAux_length, List.length_replicate] at hj1
      exact hj1
    rw [← List.getD_eq_getElem _ 0 hj1, ← List.getD_eq_getElem _ 0 hj2]
    have hspec : (multiplySpec g vec).getD j 0 = (g.nodes.map (fun u =>
        if g.degree u ≠ 0 ∧ g.nodes[j] ∈ g.neighbors u then
          vec.getD (g.nodes.indexOf u) 0 / (g.degree u : ℚ)
        else 0)).sum := by
      rw [List.getD_eq_getElem _ 0 hj2]
      simp only [multiplySpec, List.getElem_map]
    rw [hspec, multiply_Pt, multAux_getD g vec j g.nodes (List.replicate g.nodes.length 0)
      (List.length_replicate _ _) (by rw [List.length_replicate]; exact hjn)]
    have hrep : (List.replicate g.nodes.length (0 : ℚ)).getD j 0 = 0 := by
      rw [List.getD_eq_getElem?_getD]
      simp
    rw [hrep, zero_add]
    apply congrArg List.sum
    apply List.map_congr_left
    intro u _
    by_cases hdu : g.degree u = 0
    · rw [if_pos hdu, if_neg (fun hc => hc.1 hdu)]
    · rw [if_neg hdu, filter_indexOf_length g u j hjn]
      by_cases hmem : g.nodes[j] ∈ g.neighbors u
      · rw [if_pos hmem, if_pos ⟨hdu, hmem⟩, one_mul]
      · rw [if_neg hmem, if_neg (fun hc => hmem hc.2), zero_mul]

theorem set_indexOf_map {nodes : List String} (hnd : nodes.Nodup) {s : String}
    (hs : s ∈ nodes) (f : String → ℚ) (x : ℚ) :
    (nodes.map f).set (nodes.indexOf s) x = nodes.map (fun n => if n = s then x else f n) := by
  induction nodes with
  | nil => exact absurd hs (List.not_mem_nil s)
  | cons a l ih =>
    rcases List.mem_cons.mp hs with rfl | hsl
    · rw [List.indexOf_cons_self, List.map_cons, List.map_cons, List.set_cons_zero,
        if_pos rfl]
      congr 1
      apply List.map_congr_left
      intro n hn
      rw [if_neg (fun hna => (List.nodup_cons.mp hnd).1 (by rw [← hna]; exact hn))]
    · have hane : a ≠ s := fun h => (List.nodup_cons.mp hnd).1 (h ▸ hsl)
      rw [List.indexOf_cons_ne _ hane, List.map_cons, List.map_cons, List.set_cons_succ,
        ih (List.nodup_cons.mp hnd).2 hsl, if_neg hane]

theorem foldl_set_indexOf (nodes : List String) (hnd : nodes.Nodup) (c : ℚ) :
    ∀ (sr : List String), (∀ s ∈ sr, s ∈ nodes) → ∀ (f : String → ℚ),
      sr.foldl (fun r s => r.set (nodes.indexOf s) c) (nodes.map f) =
        nodes.map (fun n => if n ∈ sr then c else f n) := by
  intro sr
  induction sr with
  | nil =>
    intro _ f
    simp
  | cons s sr ih =>
    intro hsub f
    rw [List.foldl_cons, set_indexOf_map hnd (hsub s (List.mem_cons_self s sr)) f c,
      ih (fun x hx => hsub x (List.mem_cons_of_mem s hx))]
    apply List.map_congr_left
    intro n _
    by_cases hn1 : n ∈ sr
    · rw [if_pos hn1, if_pos (List.mem_cons_of_mem s hn1)]
    · rw [if_neg hn1]
      by_cases hn2 : n = s
      · rw [if_pos hn2, if_pos (List.mem_cons.mpr (Or.inl hn2))]
      · rw [if_neg hn2, if_neg (fun hc => by
          rcases List.mem_cons.mp hc with h | h
          exacts [hn2 h, hn1 h])]

theorem r0_foldl_eq (g : Graph) (sr : List String) (hsub : ∀ s ∈ sr, s ∈ g.nodes) (c : ℚ) :
    sr.foldl (fun r s => r.set (g.nodes.indexOf s) c) (List.replicate g.nodes.length 0) =
      g.nodes.map (fun n => if n ∈ sr then c else 0) := by
  rw [← List.map_const' g.nodes (0 : ℚ), foldl_set_indexOf g.nodes (g.nodes_nodup) c sr hsub]

theorem rwrIter_eq_spec (g : Graph) (alpha tol : ℚ) (r0 : List ℚ) :
    ∀ (fuel : Nat) (r : List ℚ),
      rwrIter g alpha tol r0 fuel r = rwrIterSpec g alpha tol r0 fuel r := by
  intro fuel
  induction fuel with
  | zero => intro r; rfl
  | succ fuel ih =>
    intro r
    rw [rwrIter, rwrIterSpec, multiply_Pt_eq_spec]
    split
    · rfl
    · exact ih _

/- =============================== claim C1 ================================ -/

/-- C1: `rwr_scores` computes exactly the specified iteration
`r ← (1-alpha)·(P^T r) + alpha·r0`, where `r0` places mass `1/len(resolved)`
on each resolved seed and 0 elsewhere, each node of positive degree `d(u)`
sends `r[u]/d(u)` to every one of its neighbors (uniform split, weights
ignored), degree-0 nodes send nothing, and the loop runs at most `max_iter`
times, stopping early as soon as the L1 distance between consecutive vectors
drops below `tol`; the final vector is returned as the per-node score
mapping. -/
theorem rwr_matches_spec (g : Graph) (seeds : List String) (alpha tol : ℚ)
    (maxIter : Nat) :
    rwr_scores g seeds alpha tol maxIter = rwr_scores_spec g seeds alpha tol maxIter := by
  simp only [rwr_scores, rwr_scores_spec]
  by_cases hn : g.nodes = []
  · rw [if_pos hn, if_pos hn]
  · rw [if_neg hn, if_neg hn]
    by_cases hsr : resolvedSeeds g seeds = []
    · rw [if_pos hsr, if_pos hsr]
    · rw [if_neg hsr, if_neg hsr,
        r0_foldl_eq g (resolvedSeeds g seeds)
          (fun s hs => of_decide_eq_true (List.mem_filter.mp hs).2) _,
        rwrIter_eq_spec]

/- ======================= RWR numeric lemmas (C3) ========================= -/

theorem getD_nonneg {l : List ℚ} (h : ∀ x ∈ l, 0 ≤ x) (i : Nat) : 0 ≤ l.getD i 0 := by
  by_cases hi : i < l.length
  · rw [List.getD_eq_getElem _ 0 hi]
    exact h _ (List.getElem_mem hi)
  · rw [List.getD_eq_default _ 0 (le_of_not_lt hi)]

theorem list_sum_map_add (l : List String) (f g : String → ℚ) :
    (l.map (fun a => f a + g a)).sum = (l.map f).sum + (l.map g).sum := by
  induction l with
  | nil => simp
  | cons a l ih =>
    simp only [List.map_cons, List.sum_cons, ih]
    ring

theorem list_sum_comm (l1 l2 : List String) (f : String → String → ℚ) :
    (l1.map (fun a => (l2.map (fun b => f a b)).sum)).sum =
      (l2.map (fun b => (l1.map (fun a => f a b)).sum)).sum := by
  induction l1 with
  | nil => simp
  | cons a l1 ih =>
    simp only [List.map_cons, List.sum_cons, ih, ← list_sum_map_add]

theorem sum_indicator_const (l : List String) (P : String → Bool) (c : ℚ) :
    (l.map (fun v => if P v then c else 0)).sum = ((l.filter P).length : ℚ) * c := by
  induction l with
  | nil => simp
  | cons a l ih =>
    rw [List.map_cons, List.sum_cons, ih, List.filter_cons]
    by_cases ha : P a
    · rw [if_pos ha, if_pos ha, List.length_cons]
      push_cast
      ring
    · rw [if_neg ha, if_neg ha, zero_add]

theorem filter_mem_length {nodes ns : List String} (hnd : nodes.Nodup)
    (hnsnd : ns.Nodup) (hsub : ∀ v ∈ ns, v ∈ nodes) :
    (nodes.filter (fun v => v ∈ ns)).length = ns.length := by
  apply List.Perm.length_eq
  rw [List.perm_ext_iff_of_nodup (List.Nodup.filter _ hnd) hnsnd]
  intro a
  rw [List.mem_filter]
  constructor
  · rintro ⟨_, h⟩
    exact of_decide_eq_true h
  · intro h
    exact ⟨hsub a h, decide_eq_true h⟩

theorem sum_getD_indexOf (nodes : List String) (hnd : nodes.Nodup) :
    ∀ (vec : List ℚ), vec.length = nodes.length →
      (nodes.map (fun u => vec.getD (nodes.indexOf u) 0)).sum = vec.sum := by
  induction nodes with
  | nil =>
    intro vec hlen
    rw [List.length_nil, List.length_eq_zero] at hlen
    subst hlen
    rfl
  | cons a l ih =>
    intro vec hlen
    cases vec with
    | nil => exact absurd hlen (by simp)
    | cons q qs =>
      rw [List.map_cons, List.sum_cons, List.indexOf_cons_self]
      have hcongr : ∀ u ∈ l, (q :: qs).getD ((a :: l).indexOf u) 0 = qs.getD (l.indexOf u) 0 := by
        intro u hu
        have hua : a ≠ u := fun h => (List.nodup_cons.mp hnd).1 (h ▸ hu)
        rw [List.indexOf_cons_ne _ hua]
        rfl
      rw [List.map_congr_left hcongr, ih (List.nodup_cons.mp hnd).2 qs (by simpa using hlen),
        List.sum_cons]
      rfl

theorem multiplySpec_length (g : Graph) (vec : List ℚ) :
    (multiplySpec g vec).length = g.nodes.length := by
  rw [multiplySpec, List.length_map]

theorem multiplySpec_nonneg (g : Graph) (vec : List ℚ) (hvec : ∀ x ∈ vec, 0 ≤ x) :
    ∀ x ∈ multiplySpec g vec, 0 ≤ x := by
  intro x hx
  rw [multiplySpec, List.mem_map] at hx
  obtain ⟨v, _, rfl⟩ := hx
  apply List.sum_nonneg
  intro t ht
  rw [List.mem_map] at ht
  obtain ⟨u, _, rfl⟩ := ht
  split
  · apply div_nonneg (getD_nonneg hvec _)
    positivity
  · exact le_refl 0

theorem multiplySpec_sum_le (g : Graph) (vec : List ℚ) (hvec : ∀ x ∈ vec, 0 ≤ x)
    (hlen : vec.length = g.nodes.length) :
    (multiplySpec g vec).sum ≤ vec.sum := by
  rw [multiplySpec]
  rw [list_sum_comm g.nodes g.nodes (fun v u =>
    if g.degree u ≠ 0 ∧ v ∈ g.neighbors u then
      vec.getD (g.nodes.indexOf u) 0 / (g.degree u : ℚ) else 0)]
  have hterm : ∀ u ∈ g.nodes,
      (g.nodes.map (fun v =>
        if g.degree u ≠ 0 ∧ v ∈ g.neighbors u then
          vec.getD (g.nodes.indexOf u) 0 / (g.degree u : ℚ) else 0)).sum ≤
        vec.getD (g.nodes.indexOf u) 0 := by
    intro u _
    by_cases hdu : g.degree u = 0
    · have hzero : ∀ v ∈ g.nodes,
          (if g.degree u ≠ 0 ∧ v ∈ g.neighbors u then
            vec.getD (g.nodes.indexOf u) 0 / (g.degree u : ℚ) else 0) = 0 := by
        intro v _
        rw [if_neg (fun hc => hc.1 hdu)]
      rw [List.map_congr_left hzero]
      simp only [List.map_const', List.sum_replicate, smul_zero]
      exact getD_nonneg hvec _
    · have hind : ∀ v ∈ g.nodes,
          (if g.degree u ≠ 0 ∧ v ∈ g.neighbors u then
            vec.getD (g.nodes.indexOf u) 0 / (g.degree u : ℚ) else 0) =
          (if (v ∈ g.neighbors u : Bool) then
            vec.getD (g.nodes.indexOf u) 0 / (g.degree u : ℚ) else 0) := by
        intro v _
        by_cases hv : v ∈ g.neighbors u
        · rw [if_pos ⟨hdu, hv⟩, if_pos (decide_eq_true hv)]
        · rw [if_neg (fun hc => hv hc.2), if_neg (by simpa using hv)]
      rw [List.map_congr_left hind, sum_indicator_const]
      have hflen : (g.nodes.filter (fun v => v ∈ g.neighbors u)).length =
          (g.neighbors u).length := by
        exact filter_mem_length (g.nodes_nodup) (g.neighbors_nodup u)
          (fun v hv => neighbors_subset_nodes hv)
      rw [hflen]
      rw [show ((g.neighbors u).length : ℚ) = (g.degree u : ℚ) from rfl]
      rw [mul_div_cancel₀]
      · exact Nat.cast_ne_zero.mpr hdu
  calc (g.nodes.map (fun u => (g.nodes.map (fun v =>
          if g.degree u ≠ 0 ∧ v ∈ g.neighbors u then
            vec.getD (g.nodes.indexOf u) 0 / (g.degree u : ℚ) else 0)).sum)).sum
      ≤ (g.nodes.map (fun u => vec.getD (g.nodes.indexOf u) 0)).sum :=
        List.sum_le_sum hterm
    _ = vec.sum := sum_getD_indexOf g.nodes (g.nodes_nodup) vec hlen

theorem zipWith_combo_nonneg {alpha : ℚ} (h0 : 0 ≤ alpha) (h1 : alpha ≤ 1) :
    ∀ (y r0 : List ℚ), (∀ x ∈ y, 0 ≤ x) → (∀ x ∈ r0, 0 ≤ x) →
      ∀ x ∈ List.zipWith (fun a b => (1 - alpha) * a + alpha * b) y r0, 0 ≤ x := by
  intro y
  induction y with
  | nil => intro r0 _ _ x hx; simp at hx
  | cons a y ih =>
    intro r0 hy hr0 x hx
    cases r0 with
    | nil => simp at hx
    | cons b r0 =>
      rw [List.zipWith_cons_cons] at hx
      rcases List.mem_cons.mp hx with rfl | hx2
      · have ha := hy a (List.mem_cons_self a y)
        have hb := hr0 b (List.mem_cons_self b r0)
        have : 0 ≤ 1 - alpha := by linarith
        positivity
      · exact ih r0 (fun z hz => hy z (List.mem_cons_of_mem a hz))
          (fun z hz => hr0 z (List.mem_cons_of_mem b hz)) x hx2

theorem zipWith_combo_sum (alpha : ℚ) :
    ∀ (y r0 : List ℚ), y.length = r0.length →
      (List.zipWith (fun a b => (1 - alpha) * a + alpha * b) y r0).sum =
        (1 - alpha) * y.sum + alpha * r0.sum := by
  intro y
  induction y with
  | nil =>
    intro r0 hlen
    rw [List.length_nil, Eq.comm, List.length_eq_zero] at hlen
    subst hlen
    simp
  | cons a y ih =>
    intro r0 hlen
    cases r0 with
    | nil => exact absurd hlen (by simp)
    | cons b r0 =>
      rw [List.zipWith_cons_cons, List.sum_cons, List.sum_cons, List.sum_cons,
        ih r0 (by simpa using hlen)]
      ring

theorem rwrIterSpec_invariant (g : Graph) (alpha tol : ℚ) (r0 : List ℚ)
    (h0 : 0 ≤ alpha) (h1 : alpha ≤ 1)
    (hr0n : ∀ x ∈ r0, 0 ≤ x) (hr0s : r0.sum ≤ 1) (hr0len : r0.length = g.nodes.length) :
    ∀ (fuel : Nat) (r : List ℚ), (∀ x ∈ r, 0 ≤ x) → r.sum ≤ 1 →
      r.length = g.nodes.length →
      (∀ x ∈ rwrIterSpec g alpha tol r0 fuel r, 0 ≤ x) ∧
      (rwrIterSpec g alpha tol r0 fuel r).sum ≤ 1 ∧
      (rwrIterSpec g alpha tol r0 fuel r).length = g.nodes.length := by
  intro fuel
  induction fuel with
  | zero => intro r hn hs hl; exact ⟨hn, hs, hl⟩
  | succ fuel ih =>
    intro r hn hs hl
    rw [rwrIterSpec]
    have hyn := multiplySpec_nonneg g r hn
    have hys : (multiplySpec g r).sum ≤ 1 := le_trans (multiplySpec_sum_le g r hn hl) hs
    have hyl : (multiplySpec g r).length = g.nodes.length := multiplySpec_length g r
    have hnewn := zipWith_combo_nonneg h0 h1 (multiplySpec g r) r0 hyn hr0n
    have hnews : (List.zipWith (fun a b => (1 - alpha) * a + alpha * b)
        (multiplySpec g r) r0).sum ≤ 1 := by
      rw [zipWith_combo_sum alpha (multiplySpec g r) r0 (by rw [hyl, hr0len])]
      have c1 : (1 - alpha) * (multiplySpec g r).sum ≤ (1 - alpha) * 1 :=
        mul_le_mul_of_nonneg_left hys (by linarith)
      have c2 : alpha * r0.sum ≤ alpha * 1 := mul_le_mul_of_nonneg_left hr0s h0
      linarith
    have hnewl : (List.zipWith (fun a b => (1 - alpha) * a + alpha * b)
        (multiplySpec g r) r0).length = g.nodes.length := by
      rw [List.length_zipWith, hyl, hr0len, min_self]
    split
    · exact ⟨hnewn, hnews, hnewl⟩
    · exact ih _ hnewn hnews hnewl

/- =============================== claim C3 ================================ -/

/-- C3: for every graph and restart parameter `alpha` in `(0, 1)`, every score
in the mapping returned by `rwr_scores` is non-negative and the scores sum to
at most 1. -/
theorem rwr_scores_bounds (g : Graph) (seeds : List String) (alpha tol : ℚ)
    (maxIter : Nat) (m : List (String × ℚ)) (h0 : 0 < alpha) (h1 : alpha < 1)
    (hm : rwr_scores g seeds alpha tol maxIter = .ok m) :
    (∀ p ∈ m, 0 ≤ p.2) ∧ (m.map Prod.snd).sum ≤ 1 := by
  simp only [rwr_scores] at hm
  by_cases hn : g.nodes = []
  · rw [if_pos hn, Except.ok.injEq] at hm
    subst hm
    exact ⟨by simp, by simp⟩
  · rw [if_neg hn] at hm
    by_cases hsr : resolvedSeeds g seeds = []
    · rw [if_pos hsr] at hm
      exact absurd hm (by simp)
    · rw [if_neg hsr, Except.ok.injEq] at hm
      have hsub : ∀ s ∈ resolvedSeeds g seeds, s ∈ g.nodes :=
        fun s hs => of_decide_eq_true (List.mem_filter.mp hs).2
      rw [r0_foldl_eq g (resolvedSeeds g seeds) hsub _, rwrIter_eq_spec] at hm
      set L := (resolvedSeeds g seeds).length with hL
      have hLpos : 0 < L := List.length_pos.mpr hsr
      have hcpos : (0 : ℚ) ≤ 1 / (L : ℚ) := by positivity
      set r0 := g.nodes.map (fun n => if n ∈ resolvedSeeds g seeds then 1 / (L : ℚ) else 0)
        with hr0
      have hr0n : ∀ x ∈ r0, 0 ≤ x := by
        intro x hx
        rw [hr0, List.mem_map] at hx
        obtain ⟨v, _, rfl⟩ := hx
        split
        · exact hcpos
        · exact le_refl 0
      have hr0s : r0.sum ≤ 1 := by
        rw [hr0]
        have hind : ∀ n ∈ g.nodes,
            (if n ∈ resolvedSeeds g seeds then 1 / (L : ℚ) else 0) =
              (if (n ∈ resolvedSeeds g seeds : Bool) then 1 / (L : ℚ) else 0) := by
          intro n _
          by_cases hmem : n ∈ resolvedSeeds g seeds
          · rw [if_pos hmem, if_pos (decide_eq_true hmem)]
          · rw [if_neg hmem, if_neg (by simpa using hmem)]
        rw [List.map_congr_left hind, sum_indicator_const]
        have hle : (g.nodes.filter (fun n => n ∈ resolvedSeeds g seeds)).length ≤ L := by
          apply List.Subperm.length_le
          apply List.Nodup.subperm (List.Nodup.filter _ (g.nodes_nodup))
          intro v hv
          exact of_decide_eq_true (List.mem_filter.mp hv).2
        calc ((g.nodes.filter (fun n => n ∈ resolvedSeeds g seeds)).length : ℚ) * (1 / L)
            ≤ (L : ℚ) * (1 / L) := by
              apply mul_le_mul_of_nonneg_right _ hcpos
              exact_mod_cast hle
          _ = 1 := by
              field_simp
      have hr0len : r0.length = g.nodes.length := by rw [hr0, List.length_map]
      obtain ⟨hrn, hrs, hrl⟩ := rwrIterSpec_invariant g alpha tol r0 (le_of_lt h0)
        (le_of_lt h1) hr0n hr0s hr0len maxIter r0 hr0n hr0s hr0len
      subst hm
      constructor
      · intro p hp
        rw [List.mem_map] at hp
        obtain ⟨n, _, rfl⟩ := hp
        exact getD_nonneg hrn _
      · rw [List.map_map]
        have hcomp : ∀ n ∈ g.nodes,
            (Prod.snd ∘ fun n => (n, (rwrIterSpec g alpha tol r0 maxIter r0).getD
              (g.nodes.indexOf n) 0)) n =
            (rwrIterSpec g alpha tol r0 maxIter r0).getD (g.nodes.indexOf n) 0 :=
          fun n _ => rfl
        rw [List.map_congr_left hcomp, sum_getD_indexOf g.nodes (g.nodes_nodup) _ hrl]
        exact hrs

/-- Witness for C3 at a concrete run: two nodes, one seed, `alpha = 1/2`,
three iterations. -/
theorem rwr_scores_bounds_witness :
    (0 : ℚ) < 1 / 2 ∧ (1 : ℚ) / 2 < 1 ∧
    rwr_scores ⟨[⟨"A", "B", 1⟩]⟩ ["A"] (1 / 2) 0 3 = .ok [("A", 5 / 8), ("B", 3 / 8)] ∧
    (∀ p ∈ [("A", (5 : ℚ) / 8), ("B", (3 : ℚ) / 8)], 0 ≤ p.2) ∧
    ([("A", (5 : ℚ) / 8), ("B", (3 : ℚ) / 8)].map Prod.snd).sum ≤ 1 := by
  have hm : rwr_scores ⟨[⟨"A", "B", 1⟩]⟩ ["A"] (1 / 2) 0 3 =
      .ok [("A", 5 / 8), ("B", 3 / 8)] := by
    norm_num +decide [rwr_scores, resolvedSeeds, Graph.nodes, nodesAux, insertNode, rwrIter,
      multiply_Pt, Graph.neighbors, neighAux, Graph.degree, addAt, List.indexOf,
      List.findIdx, List.findIdx.go, Bool.cond_eq_ite, beq_iff_eq, List.set,
      List.replicate, List.getD, List.getElem?_cons_zero, List.getElem?_cons_succ,
      abs_of_nonneg]
  have h := rwr_scores_bounds ⟨[⟨"A", "B", 1⟩]⟩ ["A"] (1 / 2) 0 3
    [("A", 5 / 8), ("B", 3 / 8)] (by norm_num) (by norm_num) hm
  exact ⟨by norm_num, by norm_num, hm, h.1, h.2⟩
